import Mathlib

/-!
Verification of the `stralg` substring-search library.

Strings are modelled as lists of natural-number symbols (`List Nat`): a Rust
`&str` becomes the list of its character codes, and an encoded `Str<Char>`
becomes the list of its alphabet codes.  Rust `usize` arithmetic that can
panic (subtraction overflow, out-of-bounds indexing) is modelled by returning
`Option`/`Except` values, `none`/`.error` standing for the panic.  Indexing
that is always in bounds in the source is modelled with `List.getD _ _ 0`.
`while` loops whose variable strictly decreases are run with an explicit fuel
that is provably sufficient (the fuel branch is unreachable on the inputs the
source feeds them).
-/

namespace Stralg

/-- The inner `while j > 0 && c != p[j] { j = ba[j - 1] }` loop shared by
`border_array` (src/stralg/src/lib.rs lines 49-51, src/stralg/src/patterns.rs
lines 48-50) and the KMP scan (src/stralg/src/lib.rs lines 227-229,
src/stralg/src/search/kmp.rs lines 47-49), with explicit fuel.  Each step
replaces `j` by `ba[j-1] ≤ j-1`, so fuel `j` is always enough. -/
def baFall (p ba : List Nat) (c : Nat) : Nat → Nat → Nat
  | 0, j => j
  | fuel + 1, j =>
    if 0 < j ∧ p.getD j 0 ≠ c then baFall p ba c fuel (ba.getD (j - 1) 0) else j

/-- The body of `border_array` (src/stralg/src/lib.rs lines 44-58,
src/stralg/src/patterns.rs lines 40-57): `for i in 1..m` with running border
length `j`, writing `ba[i] = j` after the fallback loop and the extension
test. -/
def borderArrayGo (p : List Nat) : Nat → List Nat → Nat → Nat → List Nat
  | 0, ba, _, _ => ba
  | fuel + 1, ba, j, i =>
    if i < p.length then
      let j1 := baFall p ba (p.getD i 0) j j
      let j2 := if p.getD i 0 = p.getD j1 0 then j1 + 1 else j1
      borderArrayGo p fuel (ba.set i j2) j2 (i + 1)
    else ba

/-- `border_array` (src/stralg/src/lib.rs lines 44-58 and the identical
src/stralg/src/patterns.rs lines 40-57): `ba = vec![0; m]`, then the loop.
The fuel `p.length` covers every iteration of `for i in 1..m`. -/
def borderArray (p : List Nat) : List Nat :=
  borderArrayGo p p.length (List.replicate p.length 0) 0 1

/-- The `for j in 1..(ba.len() - 1)` pass of `strict_border_array`
(src/stralg/src/lib.rs lines 93-98, src/stralg/src/patterns.rs lines 115-120),
updating the array in place. -/
def strictGo (p : List Nat) : Nat → List Nat → Nat → List Nat
  | 0, ba, _ => ba
  | fuel + 1, ba, j =>
    if j + 1 < ba.length then
      let b := ba.getD j 0
      let ba1 :=
        if 0 < b ∧ p.getD b 0 = p.getD (j + 1) 0 then ba.set j (ba.getD (b - 1) 0) else ba
      strictGo p fuel ba1 (j + 1)
    else ba

/-- `strict_border_array` (src/stralg/src/lib.rs lines 91-100,
src/stralg/src/patterns.rs lines 110-122).  When the border array is empty,
`ba.len() - 1` underflows (`usize` subtraction overflow panics, and the
wrapped range would index `ba[1]` out of bounds in release builds), modelled
by `none`. -/
def strictBorderArray (p : List Nat) : Option (List Nat) :=
  let ba := borderArray p
  if ba.length = 0 then none else some (strictGo p ba.length ba 1)

/-- The inner `while j < m && x[i + j] == p[j] { j += 1 }` comparison loop of
`naive` (src/stralg/src/lib.rs lines 6-9); returns the final `j`. -/
def naiveLoop (x p : List Nat) (i : Nat) : Nat → Nat → Nat
  | 0, j => j
  | fuel + 1, j =>
    if j < p.length ∧ x.getD (i + j) 0 = p.getD j 0 then naiveLoop x p i fuel (j + 1)
    else j

/-- `naive` (src/stralg/src/lib.rs lines 2-12): `(0..=n - m).filter(...)`.
When `m > n` the `usize` subtraction `n - m` overflows (a panic in debug
builds; the wrapped range then indexes `x` out of bounds in release builds),
modelled by `none`. -/
def naive (x p : List Nat) : Option (List Nat) :=
  if p.length ≤ x.length then
    some ((List.range (x.length - p.length + 1)).filter
      (fun i => naiveLoop x p i p.length 0 = p.length))
  else none

/-- The scan of `KMPSearch::next` (src/stralg/src/lib.rs lines 212-246,
src/stralg/src/search/kmp.rs lines 32-67) unrolled over the whole text: the
iterator's `while *i < n` loop, emitting `*i - m` whenever `j` reaches `m` and
resetting `j = b[j - 1]`.  `b` is the strict border array of `p`. -/
def kmpGo (x p b : List Nat) : Nat → Nat → Nat → List Nat
  | 0, _, _ => []
  | fuel + 1, i, j =>
    if i < x.length then
      let j1 := baFall p b (x.getD i 0) j j
      let j2 := if x.getD i 0 = p.getD j1 0 then j1 + 1 else j1
      if j2 = p.length then
        (i + 1 - p.length) :: kmpGo x p b fuel (i + 1) (b.getD (j2 - 1) 0)
      else kmpGo x p b fuel (i + 1) j2
    else []

/-- `kmp` (src/stralg/src/lib.rs lines 261-263): `KMPSearch::new` computes
`strict_border_array(p)` (which panics for an empty pattern, hence the
`Option`) and the iterator then yields the list produced by `kmpGo`.  The
fuel `x.length` covers the scan, which advances `i` every iteration. -/
def kmp (x p : List Nat) : Option (List Nat) :=
  (strictBorderArray p).map fun b => kmpGo x p b x.length 0 0

/-! ### The alphabet layer (src/stralg/src/utils) -/

/-- `<u8 as CharacterTrait>::MAX` (src/stralg/src/utils/char.rs line 19):
`u8::MAX as usize - 1`, reserving the sentinel. -/
def u8MAX : Nat := 255 - 1

/-- `<u16 as CharacterTrait>::MAX` (src/stralg/src/utils/char.rs line 22):
`u16::MAX as usize - 1`, reserving the sentinel. -/
def u16MAX : Nat := 65535 - 1

/-- `CharSize` (src/stralg/src/utils/char.rs lines 27-32). -/
inductive CharSize
  | u8
  | u16
deriving DecidableEq, Repr

/-- `CharSize::from_alphabet_size` (src/stralg/src/utils/char.rs lines 58-67):
`match size { 0..=U8_MAX => U8, U16_MIN..U16_MAX => U16, _ => Err }`.
Note the second arm is the half-open range `U16_MIN..U16_MAX`, excluding
`U16_MAX` itself. -/
def charSizeFromAlphabetSize (size : Nat) : Option CharSize :=
  if size ≤ u8MAX then some CharSize.u8
  else if u8MAX + 1 ≤ size ∧ size < u16MAX then some CharSize.u16
  else none

/-- The character list of `Alphabet::new` (src/stralg/src/utils/alphabet.rs
lines 41-53): the distinct symbols of the source, sorted ascending
(`sort_unstable` on distinct keys is a plain ascending sort). -/
def alphaOf (x : List Nat) : List Nat :=
  (x.dedup).insertionSort (· ≤ ·)

/-- `Alphabet::index` / `map_char` (src/stralg/src/utils/alphabet.rs lines
180-182 and 245-259): the code of `c` is its position in the sorted character
list plus one (zero is the sentinel); a symbol outside the alphabet is an
error.  The `Char::MAX` width check of `map_char` cannot fire here because
the width was already selected to fit the alphabet. -/
def mapChar (A : List Nat) (c : Nat) : Option Nat :=
  if c ∈ A then some (A.indexOf c + 1) else none

/-- `map_str` (src/stralg/src/utils/alphabet.rs lines 285-290): encode every
symbol, failing on the first symbol outside the alphabet. -/
def mapStr (A : List Nat) (s : List Nat) : Option (List Nat) :=
  s.mapM (mapChar A)

/-- `kmp` (src/stralg/src/search/kmp.rs lines 99-112 with `kmp_impl`, lines
114-125): guards for empty strings and for a pattern longer than the text,
builds the alphabet of the text (the `unwrap` on `StrMappers::new_from_str`
panics when the alphabet exceeds every supported width), encodes both
strings — an unencodable pattern yields the empty iterator — and runs the KMP
scan with the strict border array of the encoded pattern. -/
def kmpSearch (x p : List Nat) : Except String (List Nat) :=
  if x.length = 0 ∨ p.length = 0 then .ok []
  else if x.length < p.length then .ok []
  else
    let A := alphaOf x
    match charSizeFromAlphabetSize A.length with
    | none => .error "unwrap: alphabet too large"
    | some _ =>
      match mapStr A x with
      | none => .error "unwrap: text encoding failed"
      | some xm =>
        match mapStr A p with
        | none => .ok []
        | some pm =>
          match strictBorderArray pm with
          | none => .error "strict border array underflow"
          | some b => .ok (kmpGo xm pm b xm.length 0 0)

/-- `build_bad_char_table`'s `for i in 0..(p.len() - 1)` loop
(src/stralg/src/search/bmh.rs lines 20-22). -/
def badGo (p : List Nat) : Nat → List Nat → Nat → List Nat
  | 0, tbl, _ => tbl
  | fuel + 1, tbl, i =>
    if i < p.length - 1 then
      badGo p fuel (tbl.set (p.getD i 0) (p.length - i - 1)) (i + 1)
    else tbl

/-- `build_bad_char_table` (src/stralg/src/search/bmh.rs lines 15-24):
`vec![m; alphabet.len() + 1]`, then for every non-final pattern position `i`
set the slot of code `p[i]` to `m - i - 1` (rightmost occurrence wins). -/
def buildBadCharTable (alphaLen : Nat) (p : List Nat) : List Nat :=
  badGo p p.length (List.replicate (alphaLen + 1) p.length) 0

/-- The backward comparison `while k > 0 && p[k] == x[i + k] { k -= 1 }` of
`BMHSearch::next` (src/stralg/src/search/bmh.rs lines 56-59), returning the
final `k`. -/
def bmhScan (x p : List Nat) (i : Nat) : Nat → Nat
  | 0 => 0
  | k + 1 =>
    if p.getD (k + 1) 0 = x.getD (i + (k + 1)) 0 then bmhScan x p i k else k + 1

/-- The `while *i <= n - m` loop of `BMHSearch::next`
(src/stralg/src/search/bmh.rs lines 44-87) unrolled over the whole text.
On a full window match the code first advances `*i` by
`bad_char_table[x[*i]]`, records the advanced position as the hit, then
advances again by `bad_char_table[x[*i + m - 1]]` — that second lookup can be
out of bounds, modelled by `.error`.  The `panic!("jump == 0")` arms are kept.
The fuel bounds the iteration count; every shift of a table built by
`build_bad_char_table` is at least 1, so `x.length + 1` fuel is enough. -/
def bmhGo (x p tbl : List Nat) : Nat → Nat → Except String (List Nat)
  | _, 0 => .error "fuel exhausted"
  | i, fuel + 1 =>
    if i ≤ x.length - p.length then
      let k := bmhScan x p i (p.length - 1)
      if k = 0 ∧ p.getD 0 0 = x.getD i 0 then
        let jump := tbl.getD (x.getD i 0) 0
        if jump = 0 then .error "jump == 0"
        else
          let hit := i + jump
          if hit + p.length - 1 < x.length then
            match bmhGo x p tbl (hit + tbl.getD (x.getD (hit + p.length - 1) 0) 0) fuel with
            | .ok rest => .ok (hit :: rest)
            | .error e => .error e
          else .error "index out of bounds"
      else
        let jump := tbl.getD (x.getD i 0) 0
        if jump = 0 then .error "jump == 0"
        else bmhGo x p tbl (i + tbl.getD (x.getD (i + p.length - 1) 0) 0) fuel
    else .ok []

/-- `bmh` (src/stralg/src/search/bmh.rs lines 101-114 with `bmh_impl`, lines
89-99): the same guard-and-encode wrapper as `kmp`, then the BMH scan with
the bad-character table of the encoded pattern. -/
def bmhSearch (x p : List Nat) : Except String (List Nat) :=
  if x.length = 0 ∨ p.length = 0 then .ok []
  else if x.length < p.length then .ok []
  else
    let A := alphaOf x
    match charSizeFromAlphabetSize A.length with
    | none => .error "unwrap: alphabet too large"
    | some _ =>
      match mapStr A x with
      | none => .error "unwrap: text encoding failed"
      | some xm =>
        match mapStr A p with
        | none => .ok []
        | some pm => bmhGo xm pm (buildBadCharTable A.length pm) 0 (x.length + 1)

/-! ### Specification-side definitions -/

/-- The length of the longest proper prefix of `q` that is also a suffix of
`q` — the specification's description of a border-array entry. -/
def maxBorder (q : List Nat) : Nat :=
  Nat.findGreatest (fun l => (q.take l) <:+ q) (q.length - 1)

/-- The longest border length of the prefix `p.take i`, phrased over the
whole pattern: the greatest `l ≤ i - 1` whose prefix `p.take l` is a suffix
of `p.take i`.  For `i ≤ p.length` this coincides with
`maxBorder (p.take i)`. -/
def mB (p : List Nat) (i : Nat) : Nat :=
  Nat.findGreatest (fun l => p.take l <:+ p.take i) (i - 1)

/-- The property of a strict-border-array entry `S[t]` that makes the KMP
fallback sound: it is a border of `p.take (t+1)` no longer than the longest
one, and every border it skips is followed by the same character `p[t+1]`
(so a border skipped during a mismatch on that character cannot match
either). -/
def StrictOK (p S : List Nat) (t : Nat) : Prop :=
  p.take (S.getD t 0) <:+ p.take (t + 1) ∧
  S.getD t 0 ≤ mB p (t + 1) ∧
  ∀ l, S.getD t 0 < l → l < t + 1 → p.take l <:+ p.take (t + 1) →
    (t + 1 < p.length ∧ p.getD l 0 = p.getD (t + 1) 0)

/-- `"abracadabra"` as a list of character codes. -/
def abracadabra : List Nat := [97, 98, 114, 97, 99, 97, 100, 97, 98, 114, 97]

/-- `"aaaa"` as a list of character codes. -/
def aaaa : List Nat := [97, 97, 97, 97]

/-! ### Claim theorems -/

/-- C2: the claim says that for a pattern longer than the text all three
matchers return an empty sequence without panicking.  `kmp` and `bmh` do
(they guard `x.len() < p.len()`), but `naive` has no such guard: on
text `"a"`, pattern `"aa"` its range bound `n - m` underflows and the call
panics, modelled by `none`. -/
theorem claim_C2_eval :
    naive [97] [97, 97] = none ∧
    kmpSearch [97] [97, 97] = .ok [] ∧
    bmhSearch [97] [97, 97] = .ok [] :=
  ⟨rfl, rfl, rfl⟩

/-- C3: the claim says the BMH matcher emits a match offset `i` and advances
by the pattern length, so that every emitted offset starts an occurrence.
On text `"abba"`, pattern `"ab"` the code instead advances `i` by the
bad-character jump *before* recording the hit and emits offset `1`, where
`"bb"`, not `"ab"`, occurs; the genuine occurrence at offset `0` (what the
naive matcher reports) is never emitted. -/
theorem claim_C3_eval :
    bmhSearch [97, 98, 98, 97] [97, 98] = .ok [1] ∧
    naive [97, 98, 98, 97] [97, 98] = some [0] ∧
    (List.take 2 (List.drop 1 [97, 98, 98, 97]) ≠ ([97, 98] : List Nat)) :=
  ⟨rfl, rfl, by decide⟩

/-- C4: the claim says every alphabet size up to and including 65534 is
accepted.  The `U16_MIN..U16_MAX` match arm of
`CharSize::from_alphabet_size` is a half-open range, so size 65534 — the
documented usable capacity `u16::MAX - 1` of the 16-bit width, which
`Alphabet::map_char` accepts — is rejected, while 65533 is still accepted. -/
theorem claim_C4_eval :
    charSizeFromAlphabetSize 65534 = none ∧
    charSizeFromAlphabetSize 65533 = some CharSize.u16 ∧
    charSizeFromAlphabetSize 255 = some CharSize.u16 ∧
    charSizeFromAlphabetSize 254 = some CharSize.u8 := by
  refine ⟨?_, ?_, ?_, ?_⟩ <;> decide

/-- C6: `strict_border_array("abracadabra") = [0,0,0,1,0,1,0,0,0,0,4]` and
`strict_border_array("aaaa") = [0,0,0,3]`, computed by the embedded code. -/
theorem claim_C6 :
    strictBorderArray abracadabra = some [0, 0, 0, 1, 0, 1, 0, 0, 0, 0, 4] ∧
    strictBorderArray aaaa = some [0, 0, 0, 3] := by
  constructor <;> decide

/-- C9: on text `"ab"` and pattern `"ab"` — a non-empty pattern no longer
than the text, all of whose characters occur in the text — the BMH matcher
advances past the end of the text after its full match and indexes
`x[*i + m - 1]` out of bounds, a panic. -/
theorem claim_C9 :
    ([97, 98] : List Nat) ≠ [] ∧
    List.length ([97, 98] : List Nat) ≤ List.length ([97, 98] : List Nat) ∧
    (∀ c ∈ ([97, 98] : List Nat), c ∈ ([97, 98] : List Nat)) ∧
    bmhSearch [97, 98] [97, 98] = .error "index out of bounds" :=
  ⟨by decide, by decide, by decide, rfl⟩

/-- C9 witness: the panic equation of `claim_C9` restated on its own. -/
theorem claim_C9_witness :
    bmhSearch [97, 98] [97, 98] = .error "index out of bounds" :=
  claim_C9.2.2.2

/-- C10: `border_array` of the empty pattern returns the empty array, but
`strict_border_array` of the empty pattern panics: its loop bound
`ba.len() - 1` underflows. -/
theorem claim_C10 :
    borderArray [] = [] ∧ strictBorderArray [] = none :=
  ⟨rfl, rfl⟩

/-! ### List helpers -/

theorem getD_set_self {l : List Nat} {i : Nat} (v : Nat) (h : i < l.length) :
    (l.set i v).getD i 0 = v := by
  rw [List.getD_eq_getElem _ _ (by simpa using h), List.getElem_set]
  simp

theorem getD_set_ne {l : List Nat} {i t : Nat} (v : Nat) (h : i ≠ t) :
    (l.set i v).getD t 0 = l.getD t 0 := by
  simp [List.getD_eq_getElem?_getD, List.getElem?_set, h]

theorem getD_replicate_of_lt {n t a : Nat} (h : t < n) :
    (List.replicate n a).getD t 0 = a := by
  rw [List.getD_eq_getElem _ _ (by simpa using h), List.getElem_replicate]

theorem take_succ_getD {p : List Nat} {i : Nat} (h : i < p.length) :
    p.take (i + 1) = p.take i ++ [p.getD i 0] := by
  rw [List.take_succ, List.getElem?_eq_getElem h, List.getD_eq_getElem _ _ h]
  rfl

/-- Among two suffixes of the same list, the shorter is a suffix of the
longer. -/
theorem suffix_of_suffix_le {u v w : List Nat} (hu : u <:+ w) (hv : v <:+ w)
    (h : u.length ≤ v.length) : u <:+ v := by
  rw [← List.reverse_prefix] at hu hv ⊢
  exact List.prefix_of_prefix_length_le hu hv (by simpa using h)

theorem concat_suffix_concat {u v : List Nat} {a b : Nat} :
    u ++ [a] <:+ v ++ [b] ↔ u <:+ v ∧ a = b := by
  rw [← List.reverse_prefix, List.reverse_append, List.reverse_append]
  simp only [List.reverse_singleton, List.singleton_append, List.cons_prefix_cons]
  rw [List.reverse_prefix]
  tauto

/-- `Nat.findGreatest` only inspects the predicate below its bound. -/
theorem findGreatest_congr_below {P Q : Nat → Prop} [DecidablePred P] [DecidablePred Q]
    {n : Nat} (h : ∀ k, k ≤ n → (P k ↔ Q k)) :
    Nat.findGreatest P n = Nat.findGreatest Q n := by
  induction n with
  | zero => simp
  | succ n ih =>
    rw [Nat.findGreatest_succ, Nat.findGreatest_succ]
    by_cases hp : P (n + 1)
    · rw [if_pos hp, if_pos ((h (n + 1) le_rfl).mp hp)]
    · rw [if_neg hp, if_neg (fun hq => hp ((h (n + 1) le_rfl).mpr hq)),
        ih (fun k hk => h k (Nat.le_succ_of_le hk))]

/-! ### Borders of pattern prefixes -/

theorem mB_le (p : List Nat) (i : Nat) : mB p i ≤ i - 1 := by
  unfold mB; exact Nat.findGreatest_le _

theorem mB_lt {p : List Nat} {i : Nat} (h : 1 ≤ i) : mB p i < i :=
  lt_of_le_of_lt (mB_le p i) (by omega)

theorem mB_suffix (p : List Nat) (i : Nat) : p.take (mB p i) <:+ p.take i := by
  have h0 : p.take 0 <:+ p.take i := by simp
  have h := Nat.findGreatest_spec (P := fun l => p.take l <:+ p.take i)
    (Nat.zero_le (i - 1)) h0
  simpa [mB] using h

theorem le_mB {p : List Nat} {i l : Nat} (hl : l ≤ i - 1)
    (h : p.take l <:+ p.take i) : l ≤ mB p i :=
  Nat.le_findGreatest (P := fun l => p.take l <:+ p.take i) hl h

theorem mB_greatest {p : List Nat} {i l : Nat} (hl : mB p i < l) (hli : l ≤ i - 1) :
    ¬ (p.take l <:+ p.take i) :=
  Nat.findGreatest_is_greatest (P := fun l => p.take l <:+ p.take i) hl hli

/-- `maxBorder` of a prefix agrees with `mB`. -/
theorem maxBorder_take {p : List Nat} {i : Nat} (h : i ≤ p.length) :
    maxBorder (p.take i) = mB p i := by
  unfold maxBorder mB
  have hlen : (p.take i).length = i := by simp [List.length_take]; omega
  rw [hlen]
  exact findGreatest_congr_below (fun k hk => by
    rw [List.take_take, min_eq_left (by omega)])

/-- Extending a border by one matching character
(`p.take (l+1)` is a suffix of `p.take (i+1)` iff `p.take l` is a suffix of
`p.take i` and the next characters agree). -/
theorem border_succ_iff {p : List Nat} {i l : Nat} (hi : i < p.length) (hl : l ≤ i) :
    p.take (l + 1) <:+ p.take (i + 1) ↔
      (p.take l <:+ p.take i ∧ p.getD l 0 = p.getD i 0) := by
  rw [take_succ_getD hi, take_succ_getD (lt_of_le_of_lt hl hi), concat_suffix_concat]

/-- When `r` is a border of `p.take i` that the next character `p[i]` extends
and no larger border extends, the longest border of `p.take (i+1)` is
`r + 1`. -/
theorem mB_succ_of_ext {p : List Nat} {i r : Nat} (hi : i < p.length) (hri : r < i)
    (hsuf : p.take r <:+ p.take i) (hc : p.getD r 0 = p.getD i 0)
    (hmax : ∀ l, r < l → l < i → p.take l <:+ p.take i → p.getD l 0 ≠ p.getD i 0) :
    mB p (i + 1) = r + 1 := by
  have hP : p.take (r + 1) <:+ p.take (i + 1) :=
    (border_succ_iff hi (le_of_lt hri)).mpr ⟨hsuf, hc⟩
  have hle : r + 1 ≤ mB p (i + 1) := le_mB (by omega) hP
  by_contra hne
  have hgt : r + 1 < mB p (i + 1) := lt_of_le_of_ne hle (fun h => hne h.symm)
  have hMle : mB p (i + 1) ≤ i := by have := mB_le p (i + 1); omega
  obtain ⟨M, hM⟩ : ∃ M, mB p (i + 1) = M + 1 := ⟨mB p (i + 1) - 1, by omega⟩
  have hMsuf := mB_suffix p (i + 1)
  rw [hM] at hMsuf
  have hdec := (border_succ_iff hi (by omega)).mp hMsuf
  exact hmax M (by omega) (by omega) hdec.1 hdec.2

/-- When no border of `p.take i` is extended by the next character `p[i]`,
the longest border of `p.take (i+1)` is `0`. -/
theorem mB_succ_of_no_ext {p : List Nat} {i : Nat} (hi : i < p.length)
    (hmax : ∀ l, l < i → p.take l <:+ p.take i → p.getD l 0 ≠ p.getD i 0) :
    mB p (i + 1) = 0 := by
  by_contra hne
  have hMle : mB p (i + 1) ≤ i := by have := mB_le p (i + 1); omega
  obtain ⟨M, hM⟩ : ∃ M, mB p (i + 1) = M + 1 :=
    ⟨mB p (i + 1) - 1, by omega⟩
  have hMsuf := mB_suffix p (i + 1)
  rw [hM] at hMsuf
  have hdec := (border_succ_iff hi (by omega)).mp hMsuf
  exact hmax M (by omega) hdec.1 hdec.2

/-- What the fallback loop computes over a correct border array: started at a
border `j` of `p.take i` above which no border is extendable by `c`, it
returns a border `r` above which no border is extendable by `c`, with `r`
itself extendable unless `r = 0`. -/
theorem baFall_border {p ba : List Nat} {i : Nat} {c : Nat}
    (hba : ∀ t, t < i → ba.getD t 0 = mB p (t + 1)) :
    ∀ fuel j, j ≤ fuel → j < i → p.take j <:+ p.take i →
      (∀ l, j < l → l < i → p.take l <:+ p.take i → p.getD l 0 ≠ c) →
      (p.take (baFall p ba c fuel j) <:+ p.take i ∧
       baFall p ba c fuel j ≤ j ∧
       baFall p ba c fuel j < i ∧
       (∀ l, baFall p ba c fuel j < l → l < i → p.take l <:+ p.take i →
         p.getD l 0 ≠ c) ∧
       (baFall p ba c fuel j = 0 ∨ p.getD (baFall p ba c fuel j) 0 = c)) := by
  intro fuel
  induction fuel with
  | zero =>
    intro j hj hji hsuf hmax
    have hj0 : j = 0 := by omega
    subst hj0
    simp only [baFall]
    exact ⟨hsuf, le_refl _, hji, hmax, Or.inl trivial⟩
  | succ fuel ih =>
    intro j hj hji hsuf hmax
    simp only [baFall]
    by_cases hcond : 0 < j ∧ p.getD j 0 ≠ c
    · rw [if_pos hcond]
      have harr : ba.getD (j - 1) 0 = mB p j := by
        have h := hba (j - 1) (by omega)
        rwa [Nat.sub_add_cancel (by omega)] at h
      rw [harr]
      have hres := ih (mB p j)
        (by have := mB_le p j; omega)
        (by have := mB_lt (p := p) (show 1 ≤ j by omega); omega)
        ((mB_suffix p j).trans hsuf)
        (by
          intro l hl1 hl2 hsl
          rcases lt_trichotomy l j with h | h | h
          · intro _
            have hlj : p.take l <:+ p.take j :=
              suffix_of_suffix_le hsl hsuf (by simp [List.length_take]; omega)
            exact absurd hlj (mB_greatest hl1 (by omega))
          · subst h; exact hcond.2
          · exact hmax l h hl2 hsl)
      exact ⟨hres.1, le_trans hres.2.1 (by have := mB_le p j; omega), hres.2.2⟩
    · rw [if_neg hcond]
      push_neg at hcond
      refine ⟨hsuf, le_refl _, hji, hmax, ?_⟩
      by_cases hj0 : j = 0
      · exact Or.inl hj0
      · exact Or.inr (hcond (by omega))

/-- One iteration of the `border_array` loop computes the next border-array
entry: with `j = mB p i` entering iteration `i`, the computed `j2` equals
`mB p (i+1)`. -/
theorem borderStep {p ba : List Nat} {i : Nat}
    (hi1 : 1 ≤ i) (hi : i < p.length)
    (hba : ∀ t, t < i → ba.getD t 0 = mB p (t + 1)) :
    (if p.getD i 0 = p.getD (baFall p ba (p.getD i 0) (mB p i) (mB p i)) 0 then
        baFall p ba (p.getD i 0) (mB p i) (mB p i) + 1
      else baFall p ba (p.getD i 0) (mB p i) (mB p i)) = mB p (i + 1) := by
  have hwalk := baFall_border (c := p.getD i 0) hba (mB p i) (mB p i)
    (le_refl _) (mB_lt hi1) (mB_suffix p i)
    (fun l hl1 hl2 hsl => absurd hsl (mB_greatest hl1 (by omega)))
  set r := baFall p ba (p.getD i 0) (mB p i) (mB p i) with hr
  obtain ⟨hsuf, _, hri, hmax, hcr⟩ := hwalk
  by_cases hc : p.getD i 0 = p.getD r 0
  · rw [if_pos hc]
    exact (mB_succ_of_ext hi hri hsuf hc.symm hmax).symm
  · rw [if_neg hc]
    have hr0 : r = 0 := by
      rcases hcr with h | h
      · exact h
      · exact absurd h.symm hc
    rw [hr0]
    refine (mB_succ_of_no_ext hi ?_).symm
    intro l hl hsl
    rcases Nat.eq_zero_or_pos l with h0 | h0
    · subst h0
      intro hh
      exact hc (by rw [hr0]; exact hh.symm)
    · exact hmax l (by omega) hl hsl

/-- The `border_array` loop, run from a state where entries below `i` are
correct and `j` is the current border length, fills every entry with the
longest border of the corresponding prefix. -/
theorem borderArrayGo_correct {p : List Nat} :
    ∀ fuel ba j i, ba.length = p.length → 1 ≤ i → i ≤ p.length →
      p.length ≤ fuel + i →
      (∀ t, t < i → ba.getD t 0 = mB p (t + 1)) →
      j = mB p i →
      ((borderArrayGo p fuel ba j i).length = p.length ∧
       ∀ t, t < p.length → (borderArrayGo p fuel ba j i).getD t 0 = mB p (t + 1)) := by
  intro fuel
  induction fuel with
  | zero =>
    intro ba j i hlen hi1 hip hfuel hba hj
    have : i = p.length := by omega
    subst this
    simp only [borderArrayGo]
    exact ⟨hlen, hba⟩
  | succ fuel ih =>
    intro ba j i hlen hi1 hip hfuel hba hj
    simp only [borderArrayGo]
    by_cases hi : i < p.length
    · rw [if_pos hi]
      subst hj
      have hstep := borderStep hi1 hi hba
      set j1 := baFall p ba (p.getD i 0) (mB p i) (mB p i) with hj1
      set j2 := if p.getD i 0 = p.getD j1 0 then j1 + 1 else j1 with hj2
      have hset : ∀ t, t < i + 1 → (ba.set i j2).getD t 0 = mB p (t + 1) := by
        intro t ht
        rcases Nat.lt_or_ge t i with h | h
        · rw [getD_set_ne _ (by omega)]
          exact hba t h
        · have : t = i := by omega
          subst this
          rw [getD_set_self _ (by omega), hj2, hj1]
          exact hstep
      have := ih (ba.set i j2) j2 (i + 1)
        (by simp [List.length_set, hlen]) (by omega) (by omega) (by omega)
        hset (by rw [hj2, hj1]; exact hstep)
      exact this
    · rw [if_neg hi]
      have : i = p.length := by omega
      subst this
      exact ⟨hlen, hba⟩

/-- `border_array` computes the longest border of every pattern prefix. -/
theorem borderArray_correct (p : List Nat) :
    (borderArray p).length = p.length ∧
    ∀ t, t < p.length → (borderArray p).getD t 0 = mB p (t + 1) := by
  rcases Nat.eq_zero_or_pos p.length with h0 | h0
  · have : p = [] := List.length_eq_zero.mp h0
    subst this
    exact ⟨rfl, by intro t ht; omega⟩
  · unfold borderArray
    apply borderArrayGo_correct p.length (List.replicate p.length 0) 0 1
      (by simp) (le_refl _) h0 (by omega)
    · intro t ht
      have : t = 0 := by omega
      subst this
      rw [getD_replicate_of_lt h0]
      simp [mB]
    · simp [mB]

/-! ### The strict border array -/

theorem strictOK_of_mB {p S : List Nat} {t : Nat} (h : S.getD t 0 = mB p (t + 1)) :
    StrictOK p S t := by
  refine ⟨by rw [h]; exact mB_suffix p (t + 1), le_of_eq h, ?_⟩
  intro l hl1 hl2 hsuf
  rw [h] at hl1
  exact absurd hsuf (mB_greatest hl1 (by omega))

theorem strictOK_congr {p S S' : List Nat} {t : Nat}
    (h : S'.getD t 0 = S.getD t 0) (hok : StrictOK p S t) : StrictOK p S' t := by
  unfold StrictOK
  rw [h]
  exact hok

/-- Invariant of the in-place strict pass: entries below `j` satisfy
`StrictOK`, entries at or above `j` still hold the plain border values, and
the final entry is never touched. -/
theorem strictGo_invariant {p : List Nat} :
    ∀ fuel ba j, 1 ≤ j → ba.length = p.length →
      p.length ≤ fuel + j + 1 →
      (∀ t, t < j → StrictOK p ba t) →
      (∀ t, j ≤ t → t < p.length → ba.getD t 0 = mB p (t + 1)) →
      ba.getD (p.length - 1) 0 = mB p p.length →
      ((strictGo p fuel ba j).length = p.length ∧
       (∀ t, t < p.length → StrictOK p (strictGo p fuel ba j) t) ∧
       (strictGo p fuel ba j).getD (p.length - 1) 0 = mB p p.length) := by
  intro fuel
  induction fuel with
  | zero =>
    intro ba j hj1 hlen hfuel hdone htodo hlast
    simp only [strictGo]
    refine ⟨hlen, ?_, hlast⟩
    intro t ht
    rcases Nat.lt_or_ge t j with h | h
    · exact hdone t h
    · exact strictOK_of_mB (htodo t h ht)
  | succ fuel ih =>
    intro ba j hj1 hlen hfuel hdone htodo hlast
    simp only [strictGo]
    by_cases hguard : j + 1 < ba.length
    · rw [if_pos hguard]
      have hjlen : j < p.length - 1 := by omega
      have hb : ba.getD j 0 = mB p (j + 1) := htodo j (le_refl _) (by omega)
      by_cases hcond : 0 < ba.getD j 0 ∧ p.getD (ba.getD j 0) 0 = p.getD (j + 1) 0
      · rw [if_pos hcond]
        have hbpos : 0 < ba.getD j 0 := hcond.1
        have hble : ba.getD j 0 ≤ j := by
          rw [hb]; have := mB_le p (j + 1); omega
        obtain ⟨hokb1, hokb2, hokb3⟩ := hdone (ba.getD j 0 - 1) (by omega)
        have hb1 : ba.getD j 0 - 1 + 1 = ba.getD j 0 := by omega
        rw [hb1] at hokb1 hokb2 hokb3
        have hokj : StrictOK p (ba.set j (ba.getD (ba.getD j 0 - 1) 0)) j := by
          refine ⟨?_, ?_, ?_⟩
          · rw [getD_set_self _ (by omega)]
            refine hokb1.trans ?_
            rw [hb]
            exact mB_suffix p (j + 1)
          · rw [getD_set_self _ (by omega), ← hb]
            have := mB_le p (ba.getD j 0)
            omega
          · rw [getD_set_self _ (by omega)]
            intro l hl1 hl2 hsuf
            refine ⟨by omega, ?_⟩
            have hlb : l ≤ ba.getD j 0 := by
              rw [hb]
              exact le_mB (by omega) hsuf
            rcases eq_or_lt_of_le hlb with heq | hlt
            · rw [heq]
              exact hcond.2
            · have hsufb : p.take l <:+ p.take (ba.getD j 0) := by
                refine suffix_of_suffix_le hsuf ?_ ?_
                · rw [hb]; exact mB_suffix p (j + 1)
                · simp only [List.length_take]
                  have : l ≤ ba.getD j 0 := by omega
                  omega
              have h3 := hokb3 l hl1 hlt hsufb
              rw [h3.2]
              exact hcond.2
        have := ih (ba.set j (ba.getD (ba.getD j 0 - 1) 0)) (j + 1) (by omega)
          (by simp [List.length_set, hlen])
          (by omega)
          (by
            intro t ht
            rcases Nat.lt_or_ge t j with h | h
            · exact strictOK_congr (getD_set_ne _ (by omega)) (hdone t h)
            · have : t = j := by omega
              subst this
              exact hokj)
          (by
            intro t ht1 ht2
            rw [getD_set_ne _ (by omega)]
            exact htodo t (by omega) ht2)
          (by
            rw [getD_set_ne _ (by omega)]
            exact hlast)
        exact this
      · rw [if_neg hcond]
        exact ih ba (j + 1) (by omega) hlen (by omega)
          (by
            intro t ht
            rcases Nat.lt_or_ge t j with h | h
            · exact hdone t h
            · have : t = j := by omega
              subst this
              exact strictOK_of_mB hb)
          (fun t ht1 ht2 => htodo t (by omega) ht2)
          hlast
    · rw [if_neg hguard]
      refine ⟨hlen, ?_, hlast⟩
      intro t ht
      rcases Nat.lt_or_ge t j with h | h
      · exact hdone t h
      · exact strictOK_of_mB (htodo t h ht)

/-- The strict border array of a non-empty pattern: it exists, has the
pattern's length, every entry is `StrictOK`, the final entry is the longest
border of the whole pattern, and every entry is bounded by the corresponding
plain border-array entry. -/
theorem strictBorderArray_spec {p : List Nat} (hp : p ≠ []) :
    ∃ S, strictBorderArray p = some S ∧ S.length = p.length ∧
      (∀ t, t < p.length → StrictOK p S t) ∧
      S.getD (p.length - 1) 0 = mB p p.length ∧
      (∀ t, t < p.length → S.getD t 0 ≤ (borderArray p).getD t 0) := by
  have hlen0 : 0 < p.length := List.length_pos.mpr hp
  obtain ⟨hBlen, hB⟩ := borderArray_correct p
  have hsome : strictBorderArray p =
      some (strictGo p (borderArray p).length (borderArray p) 1) := by
    unfold strictBorderArray
    rw [if_neg (by omega)]
  have hinv := strictGo_invariant (borderArray p).length (borderArray p) 1
    (le_refl _) hBlen (by omega)
    (by
      intro t ht
      have : t = 0 := by omega
      subst this
      exact strictOK_of_mB (hB 0 hlen0))
    (fun t ht1 ht2 => hB t ht2)
    (by
      have h := hB (p.length - 1) (by omega)
      have e : p.length - 1 + 1 = p.length := by omega
      rwa [e] at h)
  refine ⟨_, hsome, hinv.1, hinv.2.1, hinv.2.2, ?_⟩
  intro t ht
  have hok := hinv.2.1 t ht
  rw [hB t ht]
  exact hok.2.1

/-! ### Claims C5 and C7 -/

/-- C5: `border_array(p)` has length `|p|`, entry `i` is the length of the
longest proper prefix of `p[0..=i]` that is also a suffix of it, the empty
pattern yields the empty array, and the two concrete examples hold. -/
theorem claim_C5 (p : List Nat) :
    (borderArray p).length = p.length ∧
    (∀ i, i < p.length → (borderArray p).getD i 0 = maxBorder (p.take (i + 1))) ∧
    borderArray [] = [] ∧
    borderArray abracadabra = [0, 0, 0, 1, 0, 1, 0, 1, 2, 3, 4] ∧
    borderArray aaaa = [0, 1, 2, 3] := by
  obtain ⟨hlen, hB⟩ := borderArray_correct p
  refine ⟨hlen, ?_, rfl, by decide, by decide⟩
  intro i hi
  rw [hB i hi, maxBorder_take (by omega)]

/-- C5 witness: the general statement applied at the pattern
`"abracadabra"` and index 7. -/
theorem claim_C5_witness :
    7 < abracadabra.length ∧
    (borderArray abracadabra).getD 7 0 = maxBorder (abracadabra.take (7 + 1)) :=
  ⟨by decide, (claim_C5 abracadabra).2.1 7 (by decide)⟩

/-- C7: for a non-empty pattern the border array satisfies `B[0] = 0` and
`B[i] ≤ i`, and the strict border array has the same length with
`S[i] ≤ B[i]` everywhere. -/
theorem claim_C7 (p : List Nat) (hp : p ≠ []) :
    (borderArray p).getD 0 0 = 0 ∧
    (∀ i, i < p.length → (borderArray p).getD i 0 ≤ i) ∧
    ∃ S, strictBorderArray p = some S ∧ S.length = (borderArray p).length ∧
      ∀ i, i < p.length → S.getD i 0 ≤ (borderArray p).getD i 0 := by
  have hlen0 : 0 < p.length := List.length_pos.mpr hp
  obtain ⟨hBlen, hB⟩ := borderArray_correct p
  refine ⟨?_, ?_, ?_⟩
  · rw [hB 0 hlen0]
    simp [mB]
  · intro i hi
    rw [hB i hi]
    have := mB_le p (i + 1)
    omega
  · obtain ⟨S, hS, hSlen, _, _, hSle⟩ := strictBorderArray_spec hp
    exact ⟨S, hS, by rw [hSlen, hBlen], hSle⟩

/-- C7 witness: the general statement applied at the pattern `"aaaa"`. -/
theorem claim_C7_witness :
    (([97, 97, 97, 97] : List Nat) ≠ []) ∧
    (borderArray [97, 97, 97, 97]).getD 0 0 = 0 ∧
    (borderArray [97, 97, 97, 97]).getD 2 0 ≤ 2 :=
  ⟨by decide, (claim_C7 [97, 97, 97, 97] (by decide)).1,
    (claim_C7 [97, 97, 97, 97] (by decide)).2.1 2 (by decide)⟩

/-! ### The bad-character table (claim C8) -/

theorem badGo_length (p : List Nat) :
    ∀ fuel tbl i, (badGo p fuel tbl i).length = tbl.length := by
  intro fuel
  induction fuel with
  | zero => intro tbl i; simp only [badGo]
  | succ fuel ih =>
    intro tbl i
    simp only [badGo]
    by_cases h : i < p.length - 1
    · rw [if_pos h, ih]
      simp [List.length_set]
    · rw [if_neg h]

/-- Shifting the lower bound of a rightmost-occurrence search does not change
the result when a qualifying position at or above the new bound exists. -/
theorem findGreatest_lb_shift {Q : Nat → Prop} [DecidablePred Q] {n i k0 : Nat}
    (hk0 : i + 1 ≤ k0) (hQ : Q k0) (hk0n : k0 ≤ n) :
    Nat.findGreatest (fun k => i ≤ k ∧ Q k) n =
      Nat.findGreatest (fun k => i + 1 ≤ k ∧ Q k) n := by
  have h1 : k0 ≤ Nat.findGreatest (fun k => i + 1 ≤ k ∧ Q k) n :=
    Nat.le_findGreatest (P := fun k => i + 1 ≤ k ∧ Q k) hk0n ⟨hk0, hQ⟩
  have h2 : k0 ≤ Nat.findGreatest (fun k => i ≤ k ∧ Q k) n :=
    Nat.le_findGreatest (P := fun k => i ≤ k ∧ Q k) hk0n ⟨by omega, hQ⟩
  have hs1 : i + 1 ≤ Nat.findGreatest (fun k => i + 1 ≤ k ∧ Q k) n ∧
      Q (Nat.findGreatest (fun k => i + 1 ≤ k ∧ Q k) n) :=
    Nat.findGreatest_spec (P := fun k => i + 1 ≤ k ∧ Q k) hk0n ⟨hk0, hQ⟩
  have hs2 : i ≤ Nat.findGreatest (fun k => i ≤ k ∧ Q k) n ∧
      Q (Nat.findGreatest (fun k => i ≤ k ∧ Q k) n) :=
    Nat.findGreatest_spec (P := fun k => i ≤ k ∧ Q k) hk0n ⟨by omega, hQ⟩
  apply le_antisymm
  · exact Nat.le_findGreatest (P := fun k => i + 1 ≤ k ∧ Q k)
      (Nat.findGreatest_le n) ⟨by omega, hs2.2⟩
  · exact Nat.le_findGreatest (P := fun k => i ≤ k ∧ Q k)
      (Nat.findGreatest_le n) ⟨by omega, hs1.2⟩

/-- What the bad-character loop leaves in each slot: the distance from the
rightmost qualifying pattern position at or above `i`, or the incoming value
when none exists. -/
theorem badGo_getD {p : List Nat} {N : Nat} :
    ∀ fuel tbl i, tbl.length = N + 1 → p.length - 1 ≤ fuel + i →
      ∀ c, c ≤ N →
        ((∃ k, i ≤ k ∧ k < p.length - 1 ∧ p.getD k 0 = c) →
          (badGo p fuel tbl i).getD c 0 =
            p.length - 1 -
              Nat.findGreatest (fun k => i ≤ k ∧ (k < p.length - 1 ∧ p.getD k 0 = c))
                p.length) ∧
        ((¬ ∃ k, i ≤ k ∧ k < p.length - 1 ∧ p.getD k 0 = c) →
          (badGo p fuel tbl i).getD c 0 = tbl.getD c 0) := by
  intro fuel
  induction fuel with
  | zero =>
    intro tbl i hlen hfuel c hc
    simp only [badGo]
    constructor
    · rintro ⟨k, hk1, hk2, _⟩
      omega
    · intro _
      trivial
  | succ fuel ih =>
    intro tbl i hlen hfuel c hc
    simp only [badGo]
    by_cases hi : i < p.length - 1
    · rw [if_pos hi]
      have ihc := ih (tbl.set (p.getD i 0) (p.length - i - 1)) (i + 1)
        (by simp [List.length_set, hlen]) (by omega) c hc
      constructor
      · rintro ⟨k0, hk01, hk02, hk03⟩
        by_cases hex1 : ∃ k, i + 1 ≤ k ∧ k < p.length - 1 ∧ p.getD k 0 = c
        · obtain ⟨k1, hk11, hk12, hk13⟩ := hex1
          rw [ihc.1 ⟨k1, hk11, hk12, hk13⟩]
          rw [findGreatest_lb_shift (Q := fun k => k < p.length - 1 ∧ p.getD k 0 = c)
            hk11 ⟨hk12, hk13⟩ (by omega)]
        · have hki : k0 = i := by
            rcases eq_or_lt_of_le hk01 with h | h
            · omega
            · exact absurd ⟨k0, by omega, hk02, hk03⟩ hex1
          subst hki
          rw [ihc.2 hex1]
          have hG : Nat.findGreatest
              (fun k => k0 ≤ k ∧ (k < p.length - 1 ∧ p.getD k 0 = c)) p.length = k0 := by
            have hge : k0 ≤ Nat.findGreatest
                (fun k => k0 ≤ k ∧ (k < p.length - 1 ∧ p.getD k 0 = c)) p.length :=
              Nat.le_findGreatest (by omega) ⟨le_refl _, hk02, hk03⟩
            have hspec := Nat.findGreatest_spec
              (P := fun k => k0 ≤ k ∧ (k < p.length - 1 ∧ p.getD k 0 = c))
              (show k0 ≤ p.length by omega) ⟨le_refl _, hk02, hk03⟩
            rcases eq_or_lt_of_le hge with h | h
            · omega
            · exact absurd ⟨Nat.findGreatest _ _, by omega, hspec.2.1, hspec.2.2⟩ hex1
          rw [hG, ← hk03, getD_set_self _ (by rw [hlen]; omega)]
          omega
      · intro hex
        have hex1 : ¬ ∃ k, i + 1 ≤ k ∧ k < p.length - 1 ∧ p.getD k 0 = c := by
          rintro ⟨k, hk1, hk2, hk3⟩
          exact hex ⟨k, by omega, hk2, hk3⟩
        rw [ihc.2 hex1]
        have hpc : p.getD i 0 ≠ c := fun h => hex ⟨i, le_refl _, hi, h⟩
        rw [getD_set_ne _ hpc]
    · rw [if_neg hi]
      constructor
      · rintro ⟨k, hk1, hk2, _⟩
        omega
      · intro _
        trivial

/-- C8: for a non-empty pattern over `N` alphabet codes in `[1, N]`, the
bad-character table has `N + 1` slots, the sentinel slot 0 holds the pattern
length, and each code's slot holds the distance from the rightmost
non-final occurrence of that code to the pattern's end — or the pattern
length when the code has no non-final occurrence. -/
theorem claim_C8 (N : Nat) (p : List Nat) (hm : 0 < p.length)
    (hcode : ∀ c ∈ p, 1 ≤ c ∧ c ≤ N) :
    (buildBadCharTable N p).length = N + 1 ∧
    (buildBadCharTable N p).getD 0 0 = p.length ∧
    ∀ c, c ≤ N →
      ((∃ k, k < p.length - 1 ∧ p.getD k 0 = c) →
        (buildBadCharTable N p).getD c 0 =
          p.length - 1 -
            Nat.findGreatest (fun k => k < p.length - 1 ∧ p.getD k 0 = c) p.length) ∧
      ((¬ ∃ k, k < p.length - 1 ∧ p.getD k 0 = c) →
        (buildBadCharTable N p).getD c 0 = p.length) := by
  have hcode' : ∀ k, k < p.length → 1 ≤ p.getD k 0 ∧ p.getD k 0 ≤ N := by
    intro k hk
    rw [List.getD_eq_getElem _ _ hk]
    exact hcode _ (List.getElem_mem hk)
  have hmain : ∀ c, c ≤ N →
      ((∃ k, k < p.length - 1 ∧ p.getD k 0 = c) →
        (buildBadCharTable N p).getD c 0 =
          p.length - 1 -
            Nat.findGreatest (fun k => k < p.length - 1 ∧ p.getD k 0 = c) p.length) ∧
      ((¬ ∃ k, k < p.length - 1 ∧ p.getD k 0 = c) →
        (buildBadCharTable N p).getD c 0 = p.length) := by
    intro c hc
    have hgo := badGo_getD (p := p) (N := N) p.length
      (List.replicate (N + 1) p.length) 0
      (by simp) (by omega) c hc
    constructor
    · rintro ⟨k, hk1, hk2⟩
      unfold buildBadCharTable
      rw [hgo.1 ⟨k, Nat.zero_le _, hk1, hk2⟩]
      congr 1
      exact findGreatest_congr_below (fun k' hk' => by
        constructor
        · rintro ⟨_, h⟩; exact h
        · intro h; exact ⟨Nat.zero_le _, h⟩)
    · intro hex
      unfold buildBadCharTable
      rw [hgo.2 (by
        rintro ⟨k, _, hk2, hk3⟩
        exact hex ⟨k, hk2, hk3⟩)]
      exact getD_replicate_of_lt (by omega)
  refine ⟨?_, ?_, hmain⟩
  · unfold buildBadCharTable
    rw [badGo_length]
    simp
  · refine (hmain 0 (Nat.zero_le _)).2 ?_
    rintro ⟨k, hk1, hk2⟩
    have := hcode' k (by omega)
    omega

/-- C8 witness: the general statement applied to the encoded pattern
`"abracadabra"` (codes a=1, b=2, c=3, d=4, r=5) over a 5-symbol alphabet,
reproducing the repository's own table test (length 6, sentinel slot 11). -/
theorem claim_C8_witness :
    0 < ([1, 2, 5, 1, 3, 1, 4, 1, 2, 5, 1] : List Nat).length ∧
    (∀ c ∈ ([1, 2, 5, 1, 3, 1, 4, 1, 2, 5, 1] : List Nat), 1 ≤ c ∧ c ≤ 5) ∧
    (buildBadCharTable 5 [1, 2, 5, 1, 3, 1, 4, 1, 2, 5, 1]).length = 5 + 1 ∧
    (buildBadCharTable 5 [1, 2, 5, 1, 3, 1, 4, 1, 2, 5, 1]).getD 0 0 = 11 :=
  ⟨by decide, by decide,
    (claim_C8 5 [1, 2, 5, 1, 3, 1, 4, 1, 2, 5, 1] (by decide) (by decide)).1,
    (claim_C8 5 [1, 2, 5, 1, 3, 1, 4, 1, 2, 5, 1] (by decide) (by decide)).2.1⟩

/-! ### The KMP scan (claim C1) -/

/-- The fallback loop during the scan: from a prefix-suffix `j` of the
scanned text above which no prefix-suffix is extendable by `c`, it reaches a
prefix-suffix `r` with the same property, `r` itself extendable by `c`
unless `r = 0`.  Soundness of skipping rests on `StrictOK`: a border skipped
by the strict array is followed by the very character that just
mismatched. -/
theorem kmpFall_scan {x p S : List Nat} {i c : Nat}
    (hok : ∀ t, t < p.length → StrictOK p S t) :
    ∀ fuel j, j ≤ fuel → j < p.length → p.take j <:+ x.take i →
      (∀ l, j < l → l < p.length → p.take l <:+ x.take i → p.getD l 0 ≠ c) →
      (baFall p S c fuel j ≤ j ∧
       baFall p S c fuel j < p.length ∧
       p.take (baFall p S c fuel j) <:+ x.take i ∧
       (baFall p S c fuel j = 0 ∨ p.getD (baFall p S c fuel j) 0 = c) ∧
       (∀ l, baFall p S c fuel j < l → l < p.length → p.take l <:+ x.take i →
         p.getD l 0 ≠ c)) := by
  intro fuel
  induction fuel with
  | zero =>
    intro j hj hjm hsuf hmax
    have hj0 : j = 0 := by omega
    subst hj0
    simp only [baFall]
    exact ⟨le_refl _, hjm, hsuf, Or.inl trivial, hmax⟩
  | succ fuel ih =>
    intro j hj hjm hsuf hmax
    simp only [baFall]
    by_cases hcond : 0 < j ∧ p.getD j 0 ≠ c
    · rw [if_pos hcond]
      obtain ⟨hok1, hok2, hok3⟩ := hok (j - 1) (by omega)
      have hj1 : j - 1 + 1 = j := by omega
      rw [hj1] at hok1 hok2 hok3
      have hSle : S.getD (j - 1) 0 ≤ j - 1 := by
        have := mB_le p j
        omega
      have hres := ih (S.getD (j - 1) 0)
        (by omega) (by omega)
        (hok1.trans hsuf)
        (by
          intro l hl1 hl2 hsl
          rcases lt_trichotomy l j with h | h | h
          · have hlj : p.take l <:+ p.take j :=
              suffix_of_suffix_le hsl hsuf (by
                simp only [List.length_take]
                omega)
            have h3 := hok3 l hl1 h hlj
            rw [h3.2]
            exact hcond.2
          · rw [h]
            exact hcond.2
          · exact hmax l h hl2 hsl)
      exact ⟨le_trans hres.1 (by omega), hres.2⟩
    · rw [if_neg hcond]
      push_neg at hcond
      refine ⟨le_refl _, hjm, hsuf, ?_, hmax⟩
      by_cases hj0 : j = 0
      · exact Or.inl hj0
      · exact Or.inr (hcond (by omega))

/-- One scan step: from a maximal prefix-suffix invariant at text position
`i`, the value `j2` computed by the loop body is the (capped) maximal
prefix-suffix of the text prefix extended by one character. -/
theorem kmp_step {x p S : List Nat} {i j : Nat}
    (hok : ∀ t, t < p.length → StrictOK p S t)
    (hin : i < x.length)
    (hjm : j < p.length) (hsuf : p.take j <:+ x.take i)
    (hmax : ∀ l, j < l → l < p.length → ¬ p.take l <:+ x.take i) :
    ((if x.getD i 0 = p.getD (baFall p S (x.getD i 0) j j) 0
        then baFall p S (x.getD i 0) j j + 1
        else baFall p S (x.getD i 0) j j) ≤ p.length ∧
     p.take (if x.getD i 0 = p.getD (baFall p S (x.getD i 0) j j) 0
        then baFall p S (x.getD i 0) j j + 1
        else baFall p S (x.getD i 0) j j) <:+ x.take (i + 1) ∧
     (∀ l, (if x.getD i 0 = p.getD (baFall p S (x.getD i 0) j j) 0
        then baFall p S (x.getD i 0) j j + 1
        else baFall p S (x.getD i 0) j j) < l → l ≤ p.length →
        ¬ p.take l <:+ x.take (i + 1))) := by
  obtain ⟨hw1, hw2, hw3, hw4, hw5⟩ := kmpFall_scan (i := i) (c := x.getD i 0) hok j j
    (le_refl _) hjm hsuf
    (fun l hl1 hl2 hsl => absurd hsl (hmax l hl1 hl2))
  by_cases hceq : x.getD i 0 = p.getD (baFall p S (x.getD i 0) j j) 0
  · rw [if_pos hceq]
    refine ⟨by omega, ?_, ?_⟩
    · rw [take_succ_getD hw2, take_succ_getD hin]
      exact concat_suffix_concat.mpr ⟨hw3, hceq.symm⟩
    · intro l hl1 hl2 hsl
      obtain ⟨l1, rfl⟩ : ∃ l1, l = l1 + 1 := ⟨l - 1, by omega⟩
      rw [take_succ_getD (show l1 < p.length by omega), take_succ_getD hin] at hsl
      obtain ⟨hsl1, heq1⟩ := concat_suffix_concat.mp hsl
      exact hw5 l1 (by omega) (by omega) hsl1 (by rw [heq1])
  · rw [if_neg hceq]
    have hr0 : baFall p S (x.getD i 0) j j = 0 := by
      rcases hw4 with h | h
      · exact h
      · exact absurd h.symm hceq
    refine ⟨by omega, ?_, ?_⟩
    · rw [hr0]
      simp
    · intro l hl1 hl2 hsl
      obtain ⟨l1, rfl⟩ : ∃ l1, l = l1 + 1 := ⟨l - 1, by omega⟩
      rw [take_succ_getD (show l1 < p.length by omega), take_succ_getD hin] at hsl
      obtain ⟨hsl1, heq1⟩ := concat_suffix_concat.mp hsl
      rcases Nat.eq_zero_or_pos l1 with h0 | h0
      · subst h0
        rw [hr0] at hceq
        exact hceq (by rw [heq1])
      · exact hw5 l1 (by rw [hr0]; omega) (by omega) hsl1 (by rw [heq1])

/-- The full scan: from a maximal prefix-suffix state, `kmpGo` yields exactly
the match start `e + 1 - m` for every scan position `e` at which an
occurrence of `p` ends. -/
theorem kmpGo_eq {x p S : List Nat}
    (hok : ∀ t, t < p.length → StrictOK p S t)
    (hlast : S.getD (p.length - 1) 0 = mB p p.length) :
    ∀ fuel i j, x.length - i ≤ fuel → j < p.length → p.take j <:+ x.take i →
      (∀ l, j < l → l < p.length → ¬ p.take l <:+ x.take i) →
      kmpGo x p S fuel i j =
        (List.range' i (x.length - i)).filterMap
          (fun e => if p <:+ x.take (e + 1) then some (e + 1 - p.length) else none) := by
  intro fuel
  induction fuel with
  | zero =>
    intro i j hfuel hjm hsuf hmax
    rw [show x.length - i = 0 by omega]
    simp [kmpGo]
  | succ fuel ih =>
    intro i j hfuel hjm hsuf hmax
    by_cases hi : i < x.length
    · have hstep := kmp_step hok hi hjm hsuf hmax
      simp only [kmpGo]
      rw [if_pos hi]
      set c := x.getD i 0 with hc
      set j1 := baFall p S c j j with hj1
      set j2 := (if c = p.getD j1 0 then j1 + 1 else j1) with hj2
      have hocc : j2 = p.length ↔ p <:+ x.take (i + 1) := by
        constructor
        · intro h
          have hs := hstep.2.1
          rw [h, List.take_length] at hs
          exact hs
        · intro h
          by_contra hne
          exact hstep.2.2 p.length (by omega) (le_refl _)
            (by rw [List.take_length]; exact h)
      rw [show x.length - i = (x.length - (i + 1)) + 1 by omega, List.range'_succ]
      by_cases hm2 : j2 = p.length
      · rw [if_pos hm2]
        have hpx : p <:+ x.take (i + 1) := hocc.mp hm2
        rw [List.filterMap_cons_some (by rw [if_pos hpx])]
        congr 1
        rw [hm2, hlast]
        have hm1 : 0 < p.length := by omega
        apply ih
        · omega
        · exact mB_lt hm1
        · have hb := mB_suffix p p.length
          rw [List.take_length] at hb
          exact hb.trans hpx
        · intro l hl1 hl2 hsl
          have hlp : p.take l <:+ p := by
            refine suffix_of_suffix_le hsl hpx ?_
            simp only [List.length_take]
            have := hpx.length_le
            omega
          have hlp' : p.take l <:+ p.take p.length := by
            rw [List.take_length]
            exact hlp
          have := le_mB (by omega) hlp'
          omega
      · rw [if_neg hm2]
        rw [List.filterMap_cons_none (by
          rw [if_neg (fun hpx => hm2 (hocc.mpr hpx))])]
        exact ih (i + 1) j2 (by omega) (by omega)
          hstep.2.1
          (fun l hl1 hl2 => hstep.2.2 l hl1 (le_of_lt hl2))
    · simp only [kmpGo]
      rw [if_neg hi, show x.length - i = 0 by omega, List.range'_zero]
      simp

/-- The inner comparison loop of `naive` reaches `m` exactly when every
remaining position matches. -/
theorem naiveLoop_eq {x p : List Nat} {t : Nat} :
    ∀ fuel j, p.length ≤ fuel + j → j ≤ p.length →
      (naiveLoop x p t fuel j = p.length ↔
        ∀ k, j ≤ k → k < p.length → x.getD (t + k) 0 = p.getD k 0) := by
  intro fuel
  induction fuel with
  | zero =>
    intro j h1 h2
    have hj : j = p.length := by omega
    subst hj
    simp only [naiveLoop]
    constructor
    · intro _ k hk1 hk2
      omega
    · intro _
      trivial
  | succ fuel ih =>
    intro j h1 h2
    simp only [naiveLoop]
    by_cases hc : j < p.length ∧ x.getD (t + j) 0 = p.getD j 0
    · rw [if_pos hc, ih (j + 1) (by omega) (by omega)]
      constructor
      · intro h k hk1 hk2
        rcases eq_or_lt_of_le hk1 with he | hl
        · rw [← he]
          exact hc.2
        · exact h k (by omega) hk2
      · intro h k hk1 hk2
        exact h k (by omega) hk2
    · rw [if_neg hc]
      push_neg at hc
      rcases eq_or_lt_of_le h2 with he | hl
      · subst he
        constructor
        · intro _ k hk1 hk2
          omega
        · intro _
          rfl
      · constructor
        · intro hj
          exact absurd hj (by omega)
        · intro h
          exact absurd (h j (le_refl _) hl) (hc hl)

/-- Character-by-character agreement at offset `t` is exactly "`p` is a
suffix of the text prefix ending at `t + m`". -/
theorem all_eq_iff_suffix {x p : List Nat} {t : Nat} (hm : 0 < p.length)
    (ht : t + p.length ≤ x.length) :
    (∀ k, k < p.length → x.getD (t + k) 0 = p.getD k 0) ↔
      p <:+ x.take (t + p.length) := by
  rw [List.suffix_iff_eq_drop]
  rw [List.length_take, min_eq_left (by omega),
    show t + p.length - p.length = t by omega, List.drop_take,
    show t + p.length - t = p.length by omega]
  have hlen2 : (List.take p.length (List.drop t x)).length = p.length := by
    rw [List.length_take, List.length_drop, min_eq_left (by omega)]
  constructor
  · intro h
    apply List.ext_getElem (by rw [hlen2])
    intro k h1 h2
    have hk : k < p.length := h1
    have hx : t + k < x.length := by omega
    have he := h k hk
    rw [List.getD_eq_getElem _ _ hx, List.getD_eq_getElem _ _ hk] at he
    rw [List.getElem_take, List.getElem_drop]
    exact he.symm
  · intro h k hk
    have h2 : p.getD k 0 = (List.take p.length (List.drop t x)).getD k 0 := by
      rw [← h]
    have h3 : (List.take p.length (List.drop t x)).getD k 0 = x.getD (t + k) 0 := by
      rw [List.getD_eq_getElem _ _ (lt_of_lt_of_eq hk hlen2.symm),
        List.getElem_take, List.getElem_drop,
        List.getD_eq_getElem _ _ (show t + k < x.length by omega)]
    rw [h2, h3]

/-- A `filterMap` over an if-some-none function is a filter followed by a
map. -/
theorem filterMap_if_eq {g : Nat → Nat} {Q : Nat → Prop} [DecidablePred Q] :
    ∀ l : List Nat,
      l.filterMap (fun a => if Q a then some (g a) else none) =
        (l.filter (fun a => decide (Q a))).map g := by
  intro l
  induction l with
  | nil => rfl
  | cons a l ih =>
    by_cases h : Q a
    · rw [List.filterMap_cons_some (by rw [if_pos h]),
        List.filter_cons_of_pos (by simpa using h), List.map_cons, ih]
    · rw [List.filterMap_cons_none (by rw [if_neg h]),
        List.filter_cons_of_neg (by simpa using h), ih]

/-- Re-indexing the scan-position view of the match list to the offset view
used by `naive`. -/
theorem kmp_list_bridge {x p : List Nat} (hm : 0 < p.length)
    (hmn : p.length ≤ x.length) :
    (List.range' 0 x.length).filterMap
        (fun e => if p <:+ x.take (e + 1) then some (e + 1 - p.length) else none) =
      (List.range (x.length - p.length + 1)).filter
        (fun t => decide (p <:+ x.take (t + p.length))) := by
  rw [filterMap_if_eq]
  have hsplit := List.range'_append 0 (p.length - 1) (x.length - p.length + 1) 1
  rw [show 0 + 1 * (p.length - 1) = p.length - 1 by omega,
    show x.length - p.length + 1 + (p.length - 1) = x.length by omega] at hsplit
  rw [← hsplit, List.filter_append]
  have hfirst : (List.range' 0 (p.length - 1)).filter
      (fun e => decide (p <:+ x.take (e + 1))) = [] := by
    rw [List.filter_eq_nil_iff]
    intro e he
    simp only [decide_eq_true_eq]
    intro hsuf
    have hel : e < p.length - 1 := by
      rw [List.mem_range'] at he
      obtain ⟨k, hk1, hk2⟩ := he
      omega
    have hle := hsuf.length_le
    simp only [List.length_take] at hle
    omega
  rw [hfirst, List.nil_append, List.range'_eq_map_range, List.filter_map,
    List.map_map]
  have hq : (List.range (x.length - p.length + 1)).filter
        ((fun e => decide (p <:+ x.take (e + 1))) ∘ fun k => p.length - 1 + k) =
      (List.range (x.length - p.length + 1)).filter
        (fun t => decide (p <:+ x.take (t + p.length))) := by
    apply List.filter_congr
    intro t _
    simp only [Function.comp]
    rw [show p.length - 1 + t + 1 = t + p.length by omega]
  rw [hq]
  have hid : ((fun e => e + 1 - p.length) ∘ fun k => p.length - 1 + k) = id := by
    funext a
    simp only [Function.comp, id]
    omega
  rw [hid, List.map_id]

/-- C1: on every non-empty text and non-empty pattern no longer than the
text, the KMP matcher of `lib.rs` produces exactly the same list of match
offsets as the naive matcher (ascending, overlapping occurrences
included). -/
theorem claim_C1 (x p : List Nat) (_hx : x ≠ []) (hp : p ≠ [])
    (hmn : p.length ≤ x.length) :
    kmp x p = naive x p := by
  obtain ⟨S, hS, hSlen, hSok, hSlast, _⟩ := strictBorderArray_spec hp
  have hm : 0 < p.length := List.length_pos.mpr hp
  unfold kmp naive
  rw [hS, if_pos hmn]
  rw [Option.map_some']
  congr 1
  rw [kmpGo_eq hSok hSlast x.length 0 0 (by omega) hm (by simp)
    (by
      intro l hl1 hl2 hsl
      rw [List.take_zero, List.suffix_nil] at hsl
      have : (p.take l).length = 0 := by rw [hsl]; rfl
      rw [List.length_take] at this
      omega)]
  rw [show x.length - 0 = x.length by omega]
  rw [kmp_list_bridge hm hmn]
  apply List.filter_congr
  intro t ht
  rw [List.mem_range] at ht
  rw [decide_eq_decide]
  have hiff := naiveLoop_eq (x := x) (p := p) (t := t) p.length 0 (by omega)
    (Nat.zero_le _)
  have htm : t + p.length ≤ x.length := by omega
  rw [hiff]
  constructor
  · intro h k _ hk
    exact (all_eq_iff_suffix hm htm).mpr h k hk
  · intro h
    exact (all_eq_iff_suffix hm htm).mp (fun k hk => h k (Nat.zero_le _) hk)

/-- C1 witness: the equivalence applied to text `"abracadabra"` and pattern
`"abr"`, where both matchers report offsets 0 and 7. -/
theorem claim_C1_witness :
    abracadabra ≠ [] ∧ ([97, 98, 114] : List Nat) ≠ [] ∧
    List.length ([97, 98, 114] : List Nat) ≤ abracadabra.length ∧
    kmp abracadabra [97, 98, 114] = naive abracadabra [97, 98, 114] ∧
    naive abracadabra [97, 98, 114] = some [0, 7] :=
  ⟨by decide, by decide, by decide,
    claim_C1 abracadabra [97, 98, 114] (by decide) (by decide) (by decide),
    by decide⟩

end Stralg
